import Mathlib

/-
Verification of the Atomic Data store core (atomic-data-rust).

Shallow embedding of the Commit engine (src/lib/src/commit.rs) and the
Storelike helpers (src/lib/src/storelike.rs).  Support modules of the
repository that are not part of the provided sources (values.rs,
resources.rs, serialize.rs, errors.rs, hierarchy.rs, store.rs, the url
crate and the Ed25519 primitives) are modelled from the specification:
each such definition carries a doc comment explaining what it models.
-/

namespace AtomicData

/-- Modelled from the spec: error kinds of §7 ERROR HANDLING DESIGN
(`errors.rs` is not among the provided sources).  The spec classifies:
previous-commit mismatch / subject already taken / parent-prefix rule as
`Conflict`; malformed URL and datatype violations as `Validation`;
missing or bad signature as `Unauthenticated`; hierarchy-check failure as
`Unauthorized`. -/
inductive ErrKind where
  | notFound
  | validation
  | unauthenticated
  | unauthorized
  | conflict
  | external
  | internal
deriving DecidableEq, Repr

/-- An error of the store: a kind (spec §7) together with a message. -/
structure AtomicError where
  kind : ErrKind
  msg : String
deriving DecidableEq, Repr

/-- The kind of the error of a failed computation, `none` on success. -/
def errKindOf {α : Type} : Except AtomicError α → Option ErrKind
  | .error e => some e.kind
  | .ok _ => none

mutual
/-- Modelled from the spec: the `Value` tagged union of §3 DATA MODEL
(`values.rs` is not among the provided sources).  Carriers follow the
DataType enum: String, Markdown, Slug, Date, Integer, Timestamp (i64),
Boolean, AtomicUrl, ResourceArray (ordered sub-resources), and
NestedResource (inline property/value map).  Float is omitted: no claim
and no commit in scope carries a Float (spec §9 advises avoiding them). -/
inductive Value where
  | str (s : String)
  | markdown (s : String)
  | slug (s : String)
  | date (s : String)
  | int (i : Int)
  | timestamp (i : Int)
  | bool (b : Bool)
  | atomicUrl (s : String)
  | resourceArray (xs : List SubResource)
  | nestedResource (pv : List (String × Value))

/-- Modelled from the spec: an element of a `ResourceArray` is either a
URL string or an anonymous nested resource (spec §3, §4.1). -/
inductive SubResource where
  | subject (s : String)
  | nested (pv : List (String × Value))
end

/-- The property-URL to value map of a resource.  The Rust `PropVals` is
a `BTreeMap<String, Value>`; we model it as an association list with
first-key-wins lookup (key-sorted emission happens in the serializer). -/
def PropVals : Type := List (String × Value)

/-- Map lookup on the association list. -/
def lookupPV : List (String × Value) → String → Option Value
  | [], _ => none
  | (k, v) :: rest, p => if k = p then some v else lookupPV rest p

/-- Map insert (replace-if-present) on the association list, mirroring
`BTreeMap::insert`. -/
def insertPV : List (String × Value) → String → Value → List (String × Value)
  | [], k, v => [(k, v)]
  | (k', v') :: rest, k, v =>
      if k' = k then (k, v) :: rest else (k', v') :: insertPV rest k v

/-- A Resource: a subject URL together with its property/value map
(spec §3; `resources.rs` is not among the provided sources, its
operations are modelled from spec §4.2). -/
structure Resource where
  subject : String
  propvals : List (String × Value)

/-- `Resource::get`: value at a property, or nothing. -/
def Resource.get (r : Resource) (prop : String) : Option Value :=
  lookupPV r.propvals prop

/-- `Resource::set_propval_unsafe`: insert without datatype validation. -/
def Resource.setPropvalUnsafe (r : Resource) (prop : String) (v : Value) : Resource :=
  { r with propvals := insertPV r.propvals prop v }

/-- Map removal on the association list, mirroring `BTreeMap::remove`. -/
def removePV : List (String × Value) → String → List (String × Value)
  | [], _ => []
  | (k, v) :: rest, q => if k = q then removePV rest q else (k, v) :: removePV rest q

/-- `Resource::remove_propval`: drop the property (no error if absent). -/
def Resource.removePropval (r : Resource) (prop : String) : Resource :=
  { r with propvals := removePV r.propvals prop }

/-- An Atom: the `(subject, property, value)` triple that is the unit of
the inverted index (spec §3). -/
structure Atom where
  subject : String
  property : String
  value : Value

/- Property and class URLs used by the Commit engine.  The `urls` module
is not among the provided sources; the values are fixed by the serde
renames on `Commit` in commit.rs and by the golden test strings. -/

namespace urls

def SUBJECT : String := "https://atomicdata.dev/properties/subject"
def CREATED_AT : String := "https://atomicdata.dev/properties/createdAt"
def SIGNER : String := "https://atomicdata.dev/properties/signer"
def SET : String := "https://atomicdata.dev/properties/set"
def REMOVE : String := "https://atomicdata.dev/properties/remove"
def DESTROY : String := "https://atomicdata.dev/properties/destroy"
def SIGNATURE : String := "https://atomicdata.dev/properties/signature"
def PUSH : String := "https://atomicdata.dev/properties/push"
def PREVIOUS_COMMIT : String := "https://atomicdata.dev/properties/previousCommit"
def IS_A : String := "https://atomicdata.dev/properties/isA"
def PARENT : String := "https://atomicdata.dev/properties/parent"
def LAST_COMMIT : String := "https://atomicdata.dev/properties/lastCommit"
def PUBLIC_KEY : String := "https://atomicdata.dev/properties/publicKey"
def DESCRIPTION : String := "https://atomicdata.dev/properties/description"
def SHORTNAME : String := "https://atomicdata.dev/properties/shortname"
def COMMIT : String := "https://atomicdata.dev/classes/Commit"

end urls

/-- Modelled from the spec: a JSON value, the target of the deterministic
JSON-AD serializer of §4.4/§4.8 (`serialize.rs` is not among the provided
sources). -/
inductive JsonVal where
  | jstr (s : String)
  | jint (i : Int)
  | jbool (b : Bool)
  | jarr (xs : List JsonVal)
  | jobj (fields : List (String × JsonVal))

/-- Strict order on characters by code point.  UTF-8 byte order (the
order of Rust `String`s in a `BTreeMap`) coincides with code-point
order. -/
def charLt (a b : Char) : Bool := a.toNat < b.toNat

/-- Lexicographic order on character lists (the order of Rust strings). -/
def charListLe : List Char → List Char → Bool
  | [], _ => true
  | _ :: _, [] => false
  | a :: as, b :: bs =>
      if charLt a b then true
      else if charLt b a then false
      else charListLe as bs

/-- Lexicographic order on strings. -/
def strLe (a b : String) : Bool := charListLe a.data b.data

/-- Key order on JSON object fields: compare the keys lexicographically
(the order of a Rust `BTreeMap<String, _>` over property URLs). -/
def fieldLeB (p q : String × JsonVal) : Bool := strLe p.1 q.1

/-- The propositional form of the field key order. -/
def fieldLe (p q : String × JsonVal) : Prop := fieldLeB p q = true

/-- Inserts a field into a key-sorted field list, keeping it sorted. -/
def insertField (p : String × JsonVal) : List (String × JsonVal) → List (String × JsonVal)
  | [] => [p]
  | q :: rest => if fieldLeB p q then p :: q :: rest else q :: insertField p rest

/-- Insertion sort of JSON object fields by key. -/
def sortFields : List (String × JsonVal) → List (String × JsonVal)
  | [] => []
  | p :: rest => insertField p (sortFields rest)

mutual
/-- Modelled from the spec: every JSON object in the tree gets its fields
key-sorted — the Rust serializer stores every map in a `BTreeMap`
(`PropVals` and `serde_json::Map`), so keys come out in lexicographic
order at every nesting level while array order is preserved (spec §4.4,
§4.8). -/
def deepSort : JsonVal → JsonVal
  | .jstr s => .jstr s
  | .jint i => .jint i
  | .jbool b => .jbool b
  | .jarr xs => .jarr (deepSortList xs)
  | .jobj fs => .jobj (sortFields (deepSortFields fs))

/-- Sorts each element of a JSON array in place (order preserved). -/
def deepSortList : List JsonVal → List JsonVal
  | [] => []
  | x :: xs => deepSort x :: deepSortList xs

/-- Sorts the value of each field (the keys are sorted by `deepSort`). -/
def deepSortFields : List (String × JsonVal) → List (String × JsonVal)
  | [] => []
  | (k, v) :: rest => (k, deepSort v) :: deepSortFields rest
end

mutual
/-- Every object of the JSON tree has its keys in lexicographic order. -/
def JsonSorted : JsonVal → Prop
  | .jstr _ => True
  | .jint _ => True
  | .jbool _ => True
  | .jarr xs => JsonSortedList xs
  | .jobj fs => List.Pairwise fieldLe fs ∧ JsonSortedFields fs

/-- All elements of a JSON array are deeply key-sorted. -/
def JsonSortedList : List JsonVal → Prop
  | [] => True
  | x :: xs => JsonSorted x ∧ JsonSortedList xs

/-- All field values of a JSON object are deeply key-sorted. -/
def JsonSortedFields : List (String × JsonVal) → Prop
  | [] => True
  | p :: rest => JsonSorted p.2 ∧ JsonSortedFields rest
end

/-- Hexadecimal digit for the `\u00XX` escapes of control characters. -/
def hexDigit (n : Nat) : String :=
  if n < 10 then String.mk [Char.ofNat (48 + n)]
  else String.mk [Char.ofNat (87 + n)]

/-- Modelled from the spec: JSON string escaping as performed by
`serde_json::to_string` — quote, backslash and control characters are
escaped, everything else is emitted verbatim. -/
def jsonEscapeChar (c : Char) : String :=
  if c = '"' then "\\\""
  else if c = '\\' then "\\\\"
  else if c = '\n' then "\\n"
  else if c = '\r' then "\\r"
  else if c = '\t' then "\\t"
  else if c = Char.ofNat 8 then "\\b"
  else if c = Char.ofNat 12 then "\\f"
  else if c.toNat < 32 then
    "\\u00" ++ hexDigit (c.toNat / 16) ++ hexDigit (c.toNat % 16)
  else String.mk [c]

/-- A JSON string literal: quoted and escaped. -/
def jsonQuote (s : String) : String :=
  "\"" ++ String.join (s.data.map jsonEscapeChar) ++ "\""

mutual
/-- Modelled from the spec: compact JSON emission as performed by
`serde_json::to_string` — no insignificant whitespace, integers as
integer literals, booleans as `true`/`false` (spec §4.4). -/
def emitJson : JsonVal → String
  | .jstr s => jsonQuote s
  | .jint i => toString i
  | .jbool b => if b then "true" else "false"
  | .jarr xs => "[" ++ emitJsonList xs ++ "]"
  | .jobj fs => "\x7b" ++ emitJsonFields fs ++ "\x7d"

/-- Comma-separated array elements. -/
def emitJsonList : List JsonVal → String
  | [] => ""
  | [x] => emitJson x
  | x :: xs => emitJson x ++ "," ++ emitJsonList xs

/-- Comma-separated `"key":value` fields. -/
def emitJsonFields : List (String × JsonVal) → String
  | [] => ""
  | [(k, v)] => jsonQuote k ++ ":" ++ emitJson v
  | (k, v) :: fs => jsonQuote k ++ ":" ++ emitJson v ++ "," ++ emitJsonFields fs
end

/-- The top-level fields of a JSON value (empty unless it is an object). -/
def JsonVal.fields : JsonVal → List (String × JsonVal)
  | .jobj fs => fs
  | _ => []

mutual
/-- Modelled from the spec: JSON-AD emission of a `Value` (spec §4.8) —
strings/URLs become JSON strings, numbers integer literals, a
`ResourceArray` a JSON array whose sub-resources recurse, a
`NestedResource` a JSON object of its own property/value map. -/
def valToJson : Value → JsonVal
  | .str s => .jstr s
  | .markdown s => .jstr s
  | .slug s => .jstr s
  | .date s => .jstr s
  | .int i => .jint i
  | .timestamp i => .jint i
  | .bool b => .jbool b
  | .atomicUrl s => .jstr s
  | .resourceArray xs => .jarr (subResListToJson xs)
  | .nestedResource pv => .jobj (propvalsToJsonFields pv)

/-- JSON-AD emission of the elements of a `ResourceArray`. -/
def subResListToJson : List SubResource → List JsonVal
  | [] => []
  | x :: xs => subResToJson x :: subResListToJson xs

/-- A URL sub-resource becomes a JSON string, a nested one an object. -/
def subResToJson : SubResource → JsonVal
  | .subject s => .jstr s
  | .nested pv => .jobj (propvalsToJsonFields pv)

/-- JSON-AD emission of a property/value map. -/
def propvalsToJsonFields : List (String × Value) → List (String × JsonVal)
  | [] => []
  | (k, v) :: rest => (k, valToJson v) :: propvalsToJsonFields rest
end

/-- Modelled from the spec: the `Display` form of a `Value` (values.rs is
not among the provided sources).  The Commit engine uses it on
`lastCommit` and `parent` values, which are `AtomicUrl`s rendered as
their URL string. -/
def valueToString : Value → String
  | .str s => s
  | .markdown s => s
  | .slug s => s
  | .date s => s
  | .atomicUrl s => s
  | .int i => toString i
  | .timestamp i => toString i
  | .bool b => if b then "true" else "false"
  | .resourceArray xs => emitJson (deepSort (valToJson (.resourceArray xs)))
  | .nestedResource pv => emitJson (deepSort (valToJson (.nestedResource pv)))

/-- A parsed absolute URL: scheme, host and optional query string. -/
structure ParsedUrl where
  scheme : String
  host : String
  query : Option String

/-- Splits a character list at the first `"://"`, returning the part
before (the scheme) and the part after. -/
def splitSchemeSep : List Char → Option (List Char × List Char)
  | ':' :: '/' :: '/' :: rest => some ([], rest)
  | c :: rest =>
      match splitSchemeSep rest with
      | some (pre, post) => some (c :: pre, post)
      | none => none
  | [] => none

/-- Splits a character list at the first occurrence of `sep`. -/
def splitFirst (sep : Char) : List Char → Option (List Char × List Char)
  | [] => none
  | c :: rest =>
      if c = sep then some ([], rest)
      else
        match splitFirst sep rest with
        | some (pre, post) => some (c :: pre, post)
        | none => none

/-- The characters before the first occurrence of `sep` (all of them if
`sep` does not occur). -/
def takeUntil (sep : Char) : List Char → List Char
  | [] => []
  | c :: rest => if c = sep then [] else c :: takeUntil sep rest

/-- `str::split(sep)` of Rust on a character list: the separated
segments, at least one (the empty string yields one empty segment). -/
def splitChar (sep : Char) : List Char → List (List Char)
  | [] => [[]]
  | c :: rest =>
      let r := splitChar sep rest
      if c = sep then [] :: r
      else
        match r with
        | seg :: segs => (c :: seg) :: segs
        | [] => [[c]]

/-- `str::starts_with` of Rust on character lists. -/
def listStartsWith : List Char → List Char → Bool
  | _, [] => true
  | [], _ :: _ => false
  | c :: cs, p :: ps => c = p && listStartsWith cs ps

/-- `str::starts_with` of Rust. -/
def strStartsWith (s pre : String) : Bool :=
  listStartsWith s.data pre.data

/-- Modelled from the spec: the contract of `url::Url::parse` as used by
the core (an external crate) — a subject must be a valid absolute URL
(`scheme://host…`), and the parser exposes its host and query string
(spec §3 Subject, §4.4 phase 1). -/
def parseUrl (s : String) : Option ParsedUrl :=
  match splitSchemeSep s.data with
  | none => none
  | some (schemeCs, restCs) =>
    if schemeCs.isEmpty ∨ ¬ schemeCs.all (fun c => c.isAlpha) then none
    else
      let q : Option String :=
        match splitFirst '?' restCs with
        | some (_, afterQ) => some (String.mk afterQ)
        | none => none
      let host := takeUntil '/' (takeUntil '?' restCs)
      if host.isEmpty then none
      else some ⟨String.mk schemeCs, String.mk host, q⟩

/-- The Commit record of commit.rs: target subject, creation timestamp,
signer, the `set`/`remove`/`push`/`destroy` payload, the optional
signature, the optional previous commit, and its own URL.  The Rust
`HashMap`s of `set` and `push` are modelled as association lists. -/
structure Commit where
  subject : String
  createdAt : Int
  signer : String
  set : Option (List (String × Value))
  remove : Option (List String)
  destroy : Option Bool
  signature : Option String
  push : Option (List (String × Value))
  previousCommit : Option String
  url : Option String

/-- The store as the Commit engine sees it (the `Storelike` trait):
subject-to-resource lookup, the server and self URLs, and—`Modelled from
the spec:`—the datatype/allows-only validation of §4.2/§4.6 abstracted
as the `propValid` predicate (resources.rs and values.rs are not among
the provided sources). -/
structure Store where
  resources : List (String × Resource)
  serverUrl : String
  selfUrl : Option String
  propValid : String → Value → Bool

/-- `Storelike::get_resource`: the stored resource for a subject. -/
def Store.getResource (st : Store) (subject : String) : Option Resource :=
  match st.resources.find? (fun p => p.1 = subject) with
  | some p => some p.2
  | none => none

/-- Modelled from the spec: `Resource::set_propval` validates the value
(datatype and `allows-only`, spec §4.2) before inserting; the validation
itself is the store's `propValid` predicate. -/
def Resource.setPropval (r : Resource) (prop : String) (v : Value) (st : Store) :
    Except AtomicError Resource :=
  if st.propValid prop v then .ok (r.setPropvalUnsafe prop v)
  else .error ⟨.validation, "Invalid value for property " ++ prop⟩

/-- `Resource::to_atoms`: one atom per property/value pair (spec §4.2). -/
def Resource.toAtoms (r : Resource) : List Atom :=
  r.propvals.map (fun p => ⟨r.subject, p.1, p.2⟩)

/-- Modelled from the spec: `Value::new(_, DataType::AtomicUrl)` parses
the raw string as an absolute URL (spec §4.1), failing with `Validation`. -/
def valueNewAtomicUrl (s : String) : Except AtomicError Value :=
  match parseUrl s with
  | some _ => .ok (.atomicUrl s)
  | none => .error ⟨.validation, "Not a valid URL: " ++ s⟩

/-- Modelled from the spec: `Value::new(_, DataType::Timestamp)` accepts
a non-negative i64 of milliseconds (spec §4.1). -/
def valueNewTimestamp (i : Int) : Except AtomicError Value :=
  if i < 0 then .error ⟨.validation, "Negative timestamp"⟩
  else .ok (.timestamp i)

/-- Modelled from the spec: the canonical URL of a Commit resource,
`<server>/commits/<signature>` when signed and
`<server>/commits-unsigned/<timestamp>` otherwise (spec §6; the
`AtomicUrl` route builder is not among the provided sources).  `now` is
the clock value of `utils::now()`. -/
def mkCommitUrl (c : Commit) (st : Store) (now : Int) : String :=
  match c.signature with
  | some sig => st.serverUrl ++ "/commits/" ++ sig
  | none => st.serverUrl ++ "/commits-unsigned/" ++ toString now

/-- `Commit::into_resource` (commit.rs): converts the Commit into a
Resource keyed by the canonical property URLs.  Field by field in source
order: `subject` and `signer` are validated as AtomicUrls, `createdAt`
as a Timestamp, `isA` is set to `[Commit]`, `set` becomes a nested map,
`remove` a resource array (omitted when empty), `destroy` only appears
when true, `previousCommit` is copied verbatim, `signer` is set a second
time, `signature` is copied when present, and `push` becomes a nested
map (omitted when empty).  `Resource::new_instance(COMMIT, store)` is
modelled as a fresh resource: its minted subject is overwritten by
`set_subject` and its class by the explicit `isA` insert. -/
def Commit.intoResource (c : Commit) (st : Store) (now : Int) :
    Except AtomicError Resource := do
  let commitSubject := mkCommitUrl c st now
  let r : Resource := ⟨commitSubject, []⟩
  let subjVal ← valueNewAtomicUrl c.subject
  let r := r.setPropvalUnsafe urls.SUBJECT subjVal
  let r := r.setPropvalUnsafe urls.IS_A (.resourceArray [.subject urls.COMMIT])
  let createdVal ← valueNewTimestamp c.createdAt
  let r := r.setPropvalUnsafe urls.CREATED_AT createdVal
  let signerVal ← valueNewAtomicUrl c.signer
  let r := r.setPropvalUnsafe urls.SIGNER signerVal
  let r := match c.set with
    | some set => r.setPropvalUnsafe urls.SET (.nestedResource set)
    | none => r
  let r := match c.remove with
    | some remove =>
        if remove.isEmpty then r
        else r.setPropvalUnsafe urls.REMOVE
          (.resourceArray (remove.map SubResource.subject))
    | none => r
  let r := match c.destroy with
    | some d => if d then r.setPropvalUnsafe urls.DESTROY (.bool true) else r
    | none => r
  let r := match c.previousCommit with
    | some prev => r.setPropvalUnsafe urls.PREVIOUS_COMMIT (.atomicUrl prev)
    | none => r
  let r := r.setPropvalUnsafe urls.SIGNER signerVal
  let r := match c.signature with
    | some sig => r.setPropvalUnsafe urls.SIGNATURE (.str sig)
    | none => r
  let r := match c.push with
    | some push =>
        if push.isEmpty then r
        else r.setPropvalUnsafe urls.PUSH (.nestedResource push)
    | none => r
  return r

/-- The JSON tree of `Commit::serialize_deterministically_json_ad`:
`into_resource`, drop the `signature` property, then emit the property
map as a key-sorted JSON object (`propvals_to_json_ad_map` with no
`@id`; the sortedness of every map is in `deepSort`). -/
def Commit.serializeJson (c : Commit) (st : Store) (now : Int) :
    Except AtomicError JsonVal := do
  let r ← c.intoResource st now
  let r := r.removePropval urls.SIGNATURE
  return deepSort (.jobj (propvalsToJsonFields r.propvals))

/-- `Commit::serialize_deterministically_json_ad` (commit.rs): the
canonical byte string that is the signing input. -/
def Commit.serializeDeterministicallyJsonAd (c : Commit) (st : Store) (now : Int) :
    Except AtomicError String :=
  (c.serializeJson st now).map emitJson

/-- `ACCEPTABLE_TIME_DIFFERENCE` (commit.rs): the clock-skew window in
milliseconds. -/
def ACCEPTABLE_TIME_DIFFERENCE : Int := 10000

/-- `check_timestamp` (commit.rs): rejects a Commit created further than
the clock-skew window in the future.  `now` models `utils::now()`. -/
def checkTimestamp (now timestamp : Int) : Except AtomicError Unit :=
  if timestamp > now + ACCEPTABLE_TIME_DIFFERENCE then
    .error ⟨.validation, "Commit CreatedAt timestamp must lie in the past"⟩
  else .ok ()

/-- `From<SubResource> for Value`: a URL element becomes an `AtomicUrl`,
a nested element a `NestedResource` (used when indexing pushed atoms). -/
def subResourceToValue : SubResource → Value
  | .subject s => .atomicUrl s
  | .nested pv => .nestedResource pv

/-- `CommitOpts` (commit.rs): which validations `apply_opts` performs. -/
structure CommitOpts where
  validateSchema : Bool
  validateSignature : Bool
  validateTimestamp : Bool
  validateRights : Bool
  validatePreviousCommit : Bool
  updateIndex : Bool
  validateForAgent : Option String
  validateSubjectUrlParent : Bool

/-- Modelled from the spec: the collaborators of `apply_opts` that live
outside the provided sources, passed as oracles —
`verify msg sig pubkey` is the Ed25519 check of §4.4 Signing (the ring
crate); `checkAppend`/`checkWrite` are `hierarchy::check_append` /
`check_write` of §4.5 walking the parent chain of the given resource;
`checkRequiredProps` is `Resource::check_required_props` of §4.6. -/
structure Oracles where
  verify : String → String → String → Bool
  checkAppend : Store → Resource → String → Except AtomicError Unit
  checkWrite : Store → Resource → String → Except AtomicError Unit
  checkRequiredProps : Store → Resource → Except AtomicError Unit

/-- Replace-or-insert a resource under its subject. -/
def Store.insertResource (st : Store) (r : Resource) : Store :=
  { st with resources :=
      (r.subject, r) :: st.resources.filter (fun p => p.1 ≠ r.subject) }

/-- `Storelike::remove_resource`: errors with `NotFound` if absent. -/
def Store.removeResource (st : Store) (subject : String) :
    Except AtomicError Store :=
  if (st.getResource subject).isSome then
    .ok { st with resources := st.resources.filter (fun p => p.1 ≠ subject) }
  else .error ⟨.notFound, "Resource not found: " ++ subject⟩

/-- `Storelike::add_resource_opts`: optional required-props check, then
an overwrite-if-present subject write that fails with `Conflict` when
`overwriteExisting` is false and the subject exists (spec §4.3, §7).
The value-index maintenance of the persistent backend is outside the
provided sources; the atoms a commit adds and removes are computed in
`applyChanges`. -/
def Store.addResourceOpts (st : Store) (r : Resource)
    (checkRequired updateIndex overwriteExisting : Bool) (O : Oracles) :
    Except AtomicError Store := do
  let _ := updateIndex
  if checkRequired then
    O.checkRequiredProps st r
  if !overwriteExisting && (st.getResource r.subject).isSome then
    throw ⟨.conflict, "Resource already exists: " ++ r.subject⟩
  return st.insertResource r

/-- The `remove` loop of `Commit::apply_changes`: drop each property;
when indexing, record a removed atom only for properties present on the
unedited resource (a missing property is not an error). -/
def applyRemoveList (subject : String) (unedited : Resource) (updateIndex : Bool) :
    List String → Resource → List Atom → Resource × List Atom
  | [], res, removeAtoms => (res, removeAtoms)
  | prop :: rest, res, removeAtoms =>
      let res := res.removePropval prop
      let removeAtoms :=
        if updateIndex then
          match unedited.get prop with
          | some val => removeAtoms ++ [⟨subject, prop, val⟩]
          | none => removeAtoms
        else removeAtoms
      applyRemoveList subject unedited updateIndex rest res removeAtoms

/-- The `set` loop of `Commit::apply_changes`: validated overwrite of
each property; when indexing, record the removed old atom (if the
property existed) and the added new atom. -/
def applySetList (unedited : Resource) (st : Store) (updateIndex : Bool) :
    List (String × Value) → Resource → List Atom → List Atom →
    Except AtomicError (Resource × List Atom × List Atom)
  | [], res, removeAtoms, addAtoms => .ok (res, removeAtoms, addAtoms)
  | (prop, newVal) :: rest, res, removeAtoms, addAtoms => do
      let res ← res.setPropval prop newVal st
      let (removeAtoms, addAtoms) :=
        if updateIndex then
          let removeAtoms :=
            match unedited.get prop with
            | some oldVal => removeAtoms ++ [⟨res.subject, prop, oldVal⟩]
            | none => removeAtoms
          (removeAtoms, addAtoms ++ [⟨res.subject, prop, newVal⟩])
        else (removeAtoms, addAtoms)
      applySetList unedited st updateIndex rest res removeAtoms addAtoms

/-- The `push` loop of `Commit::apply_changes`: read the existing array
(empty if the property is absent; error if the existing value is not a
`ResourceArray`), append the pushed elements, write back without
validation; when indexing, record one added atom per appended element. -/
def applyPushList (st : Store) (updateIndex : Bool) :
    List (String × Value) → Resource → List Atom →
    Except AtomicError (Resource × List Atom)
  | [], res, addAtoms => .ok (res, addAtoms)
  | (prop, vecVal) :: rest, res, addAtoms => do
      let _ := st
      let oldVec ←
        match res.get prop with
        | some (.resourceArray arr) => pure arr
        | some _ => throw ⟨.validation, "Wrong datatype when pushing to array"⟩
        | none => pure []
      let newVec ←
        match vecVal with
        | .resourceArray arr => pure arr
        | _ => throw ⟨.validation, "Wrong datatype when pushing to array"⟩
      let res := res.setPropvalUnsafe prop (.resourceArray (oldVec ++ newVec))
      let addAtoms :=
        if updateIndex then
          addAtoms ++ newVec.map (fun sr => (⟨res.subject, prop, subResourceToValue sr⟩ : Atom))
        else addAtoms
      applyPushList st updateIndex rest res addAtoms

/-- `Commit::apply_changes` (commit.rs): apply `remove`, then `set`,
then `push` to a working copy; a `destroy` commit additionally marks
every remaining atom of the edited resource for removal.  Returns the
edited resource together with the atoms to remove from and add to the
inverted index (the loops feeding them to the backend index are the
final `update_index` block of the source). -/
def Commit.applyChanges (c : Commit) (resource : Resource) (st : Store)
    (updateIndex : Bool) :
    Except AtomicError (Resource × List Atom × List Atom) := do
  let resourceUnedited := resource
  let (resource, removeAtoms) :=
    match c.remove with
    | some remove =>
        applyRemoveList resource.subject resourceUnedited updateIndex remove resource []
    | none => (resource, [])
  let (resource, removeAtoms, addAtoms) ←
    match c.set with
    | some set => applySetList resourceUnedited st updateIndex set resource removeAtoms []
    | none => pure (resource, removeAtoms, [])
  let (resource, addAtoms) ←
    match c.push with
    | some push => applyPushList st updateIndex push resource addAtoms
    | none => pure (resource, addAtoms)
  let removeAtoms :=
    match c.destroy with
    | some d => if d then removeAtoms ++ resource.toAtoms else removeAtoms
    | none => removeAtoms
  return (resource, removeAtoms, addAtoms)

/-- `CommitResponse` (commit.rs), extended with the resulting store so
that the state-passing embedding can return it. -/
structure CommitResponse where
  commitResource : Resource
  resourceNew : Option Resource
  resourceOld : Option Resource
  commitStruct : Commit
  store : Store

/-- `Commit::apply_opts` (commit.rs), phase by phase in source order:
parse the subject URL and reject query parameters; optional signature
check (signer public key from the store, Ed25519 oracle over the
canonical serialization); optional timestamp check; `into_resource`;
load the target (marking `is_new` when absent); optional
previous-commit check (`Conflict` on mismatch or on a missing
`previousCommit`, but a resource without `lastCommit` is accepted with
a warning); apply the changes without indexing; optional parent-prefix
check for new subjects; optional rights check — `append` on the new
resource when new, otherwise `write` on the OLD resource, injecting the
store's self URL as default parent when the old resource has none;
optional schema check; stamp `lastCommit`; destroy path or re-apply
with index update; persist the commit (no overwrite) and the new
resource.  The `resource_new.get_classes(store)` lookup and the
class-dispatched before/after commit handlers that consume it (gated
behind the `db` cargo feature; plugins are outside the core contract,
spec §1) are not modelled — class resolution lives in resources.rs,
which is not among the provided sources — and `handle_commit` is a
notification hook with no observable effect here. -/
def Commit.applyOpts (c : Commit) (st : Store) (opts : CommitOpts)
    (O : Oracles) (now : Int) : Except AtomicError CommitResponse := do
  let subjectUrl ←
    match parseUrl c.subject with
    | some u => pure u
    | none => throw ⟨.validation, "Subject '" ++ c.subject ++ "' is not a URL."⟩
  if subjectUrl.query.isSome then
    throw ⟨.validation, "Subject URL cannot have query parameters"⟩
  if opts.validateSignature then
    let sig ←
      match c.signature with
      | some s => pure s
      | none => throw ⟨.unauthenticated, "No signature set"⟩
    let signerResource ←
      match st.getResource c.signer with
      | some r => pure r
      | none => throw ⟨.notFound, "Signer not found: " ++ c.signer⟩
    let pubkey ←
      match signerResource.get urls.PUBLIC_KEY with
      | some v => pure (valueToString v)
      | none => throw ⟨.notFound, "No public key on signer"⟩
    let stringifiedCommit ← c.serializeDeterministicallyJsonAd st now
    if !(O.verify stringifiedCommit sig pubkey) then
      throw ⟨.unauthenticated, "Incorrect signature for Commit"⟩
  if opts.validateTimestamp then
    checkTimestamp now c.createdAt
  let commitResource ← c.intoResource st now
  let (isNew, resourceOld) :=
    match st.getResource c.subject with
    | some r => (false, r)
    | none => (true, (⟨c.subject, []⟩ : Resource))
  if !isNew && opts.validatePreviousCommit then
    match resourceOld.get urls.LAST_COMMIT with
    | some lastCommitVal =>
      match c.previousCommit with
      | some prevCommit =>
          if valueToString lastCommitVal ≠ prevCommit then
            throw ⟨.conflict, "previousCommit mismatch"⟩
          else pure ()
      | none => throw ⟨.conflict, "Missing previousCommit"⟩
    | none => pure ()
  let (resourceNew, _, _) ← c.applyChanges resourceOld st false
  if isNew && opts.validateSubjectUrlParent then
    match resourceNew.get urls.PARENT with
    | some parentVal =>
        if !(strStartsWith c.subject (valueToString parentVal)) then
          throw ⟨.conflict, "the parent is not part of the URL of the new subject"⟩
        else pure ()
    | none => pure ()
  let resourceOld ←
    if opts.validateRights then
      let validateFor := opts.validateForAgent.getD c.signer
      if isNew then do
        O.checkAppend st resourceNew validateFor
        pure resourceOld
      else do
        let resourceOld ←
          match resourceOld.get urls.PARENT with
          | some _ => pure resourceOld
          | none => do
              let defaultParent ←
                match st.selfUrl with
                | some u => pure u
                | none => throw (⟨.internal,
                    "There is no self_url set, and no parent in the Commit. The commit can not be applied."⟩ : AtomicError)
              resourceOld.setPropval urls.PARENT (.atomicUrl defaultParent) st
        O.checkWrite st resourceOld validateFor
        pure resourceOld
    else pure resourceOld
  if opts.validateSchema then
    O.checkRequiredProps st resourceNew
  let resourceNew ← resourceNew.setPropval urls.LAST_COMMIT
      (.atomicUrl commitResource.subject) st
  if c.destroy = some true then do
    let stDestroyed ← st.removeResource c.subject
    let stDestroyed ← stDestroyed.addResourceOpts commitResource false opts.updateIndex false O
    return { commitResource, resourceNew := none, resourceOld := some resourceOld,
             commitStruct := c, store := stDestroyed }
  let _ ← c.applyChanges resourceOld st opts.updateIndex
  let stSaved ← st.addResourceOpts commitResource false opts.updateIndex false O
  let stSaved ← stSaved.addResourceOpts resourceNew false false true O
  return { commitResource, resourceNew := some resourceNew,
           resourceOld := some resourceOld, commitStruct := c, store := stSaved }

/-- Modelled from the spec: `LOCAL_STORE_URL_STR` (store.rs, not among
the provided sources) — "the special literal `local` marks a client-only
store where everything is external" (spec §4.3). -/
def LOCAL_STORE_URL_STR : String := "local"

/-- `Storelike::is_external_subject` (storelike.rs), line by line: a
`local` self URL makes every subject external; a subject prefixed by the
self URL is internal; otherwise the subject URL is parsed, its host
split on `'.'`, and the LAST part of the host (`subject_host_parts.last()`
in the source) is compared against the self host — equal means internal,
different means external. -/
def Store.isExternalSubject (st : Store) (subject : String) :
    Except AtomicError Bool :=
  match st.selfUrl with
  | some selfUrl =>
    if selfUrl = LOCAL_STORE_URL_STR then .ok true
    else if strStartsWith subject selfUrl then .ok false
    else
      match parseUrl subject with
      | none => .error ⟨.validation, "Subject is not a URL: " ++ subject⟩
      | some subjectUrl =>
        match parseUrl selfUrl with
        | none => .error ⟨.notFound, "Self URL has no host: " ++ selfUrl⟩
        | some selfParsed =>
          let subjectHostParts := splitChar '.' subjectUrl.host.data
          match subjectHostParts.getLast? with
          | none => .ok false
          | some subjectHostStripped =>
              if String.mk subjectHostStripped = selfParsed.host then .ok false
              else .ok true
  | none => .ok true

/- ------------------------------------------------------------------ -/
/- Helper lemmas.                                                      -/
/- ------------------------------------------------------------------ -/

theorem except_pure_eq {α : Type} (a : α) : (pure a : Except AtomicError α) = .ok a := rfl

theorem except_bind_ok {α β : Type} (a : α) (f : α → Except AtomicError β) :
    (Except.ok a >>= f) = f a := rfl

theorem except_bind_error {α β : Type} (e : AtomicError) (f : α → Except AtomicError β) :
    (Except.error e >>= f) = Except.error e := rfl

theorem except_throw_eq {α : Type} (e : AtomicError) :
    (throw e : Except AtomicError α) = Except.error e := rfl

theorem except_throw_bind {α β : Type} (e : AtomicError) (f : α → Except AtomicError β) :
    ((throw e : Except AtomicError α) >>= f) = Except.error e := rfl

theorem subject_setPropvalUnsafe (r : Resource) (p : String) (v : Value) :
    (r.setPropvalUnsafe p v).subject = r.subject := rfl

theorem lookupPV_insertPV_self (pvs : List (String × Value)) (k : String) (v : Value) :
    lookupPV (insertPV pvs k v) k = some v := by
  induction pvs with
  | nil => simp [insertPV, lookupPV]
  | cons p rest ih =>
      obtain ⟨k', v'⟩ := p
      by_cases h : k' = k
      · simp [insertPV, lookupPV, h]
      · simp [insertPV, lookupPV, h, ih]

theorem lookupPV_insertPV_ne (pvs : List (String × Value)) (k P : String) (v : Value)
    (h : k ≠ P) : lookupPV (insertPV pvs k v) P = lookupPV pvs P := by
  induction pvs with
  | nil => simp [insertPV, lookupPV, h]
  | cons p rest ih =>
      obtain ⟨k', v'⟩ := p
      by_cases hk : k' = k
      · subst hk
        simp [insertPV, lookupPV, h]
      · simp [insertPV, lookupPV, hk, ih]

theorem lookupPV_removePV_self (pvs : List (String × Value)) (q : String) :
    lookupPV (removePV pvs q) q = none := by
  induction pvs with
  | nil => simp [removePV, lookupPV]
  | cons p rest ih =>
      obtain ⟨k', v'⟩ := p
      by_cases h : k' = q
      · simp [removePV, h, ih]
      · simp [removePV, lookupPV, h, ih]

theorem lookupPV_removePV_ne (pvs : List (String × Value)) (q P : String) (h : q ≠ P) :
    lookupPV (removePV pvs q) P = lookupPV pvs P := by
  induction pvs with
  | nil => simp [removePV]
  | cons p rest ih =>
      obtain ⟨k', v'⟩ := p
      by_cases hk : k' = q
      · subst hk
        simp [removePV, lookupPV, ih, h]
      · simp [removePV, lookupPV, hk, ih]

theorem get_removePropval (r : Resource) (q P : String) :
    (r.removePropval q).get P = if q = P then none else r.get P := by
  by_cases h : q = P
  · subst h
    simp [Resource.removePropval, Resource.get, lookupPV_removePV_self]
  · simp [Resource.removePropval, Resource.get, h, lookupPV_removePV_ne _ _ _ h]

theorem get_setPropvalUnsafe_self (r : Resource) (k : String) (v : Value) :
    (r.setPropvalUnsafe k v).get k = some v := by
  simp [Resource.setPropvalUnsafe, Resource.get, lookupPV_insertPV_self]

theorem get_setPropvalUnsafe_ne (r : Resource) (k P : String) (v : Value) (h : ¬ k = P) :
    (r.setPropvalUnsafe k v).get P = r.get P := by
  simp [Resource.setPropvalUnsafe, Resource.get, lookupPV_insertPV_ne _ _ _ _ h]

theorem lookupPV_some_mem : ∀ (pvs : List (String × Value)) (k : String) (v : Value),
    lookupPV pvs k = some v → (k, v) ∈ pvs := by
  intro pvs k v
  induction pvs with
  | nil => intro h; cases h
  | cons p rest ih =>
      obtain ⟨k', v'⟩ := p
      intro h
      by_cases hk : k' = k
      · subst hk
        simp [lookupPV] at h
        simp [h]
      · simp [lookupPV, hk] at h
        simp [ih h]

theorem fst_removePV_ne : ∀ (pvs : List (String × Value)) (q k : String),
    k ∈ (removePV pvs q).map Prod.fst → k ≠ q := by
  intro pvs q k
  induction pvs with
  | nil => intro h; simp [removePV] at h
  | cons p rest ih =>
      obtain ⟨k', v'⟩ := p
      intro h
      by_cases hk : k' = q
      · simp only [removePV, hk, if_true] at h
        exact ih h
      · simp only [removePV, hk, if_false, List.map_cons, List.mem_cons] at h
        rcases h with h | h
        · rw [h]; exact hk
        · exact ih h

theorem charListLe_total : ∀ (a b : List Char),
    charListLe a b = true ∨ charListLe b a = true := by
  intro a
  induction a with
  | nil => intro b; left; simp [charListLe]
  | cons x xs ih =>
      intro b
      cases b with
      | nil => right; simp [charListLe]
      | cons y ys =>
          by_cases h1 : charLt x y = true
          · left; simp [charListLe, h1]
          · by_cases h2 : charLt y x = true
            · right; simp [charListLe, h2]
            · rcases ih ys with h | h
              · left; simp [charListLe, h1, h2, h]
              · right; simp [charListLe, h1, h2, h]

theorem charLt_eq_of_not {x y : Char} (h1 : charLt x y = false) (h2 : charLt y x = false) :
    x.toNat = y.toNat := by
  simp [charLt] at *
  omega

theorem charListLe_trans : ∀ (a b c : List Char),
    charListLe a b = true → charListLe b c = true → charListLe a c = true := by
  intro a
  induction a with
  | nil => intro b c _ _; simp [charListLe]
  | cons x xs ih =>
      intro b c hab hbc
      cases b with
      | nil => simp [charListLe] at hab
      | cons y ys =>
          cases c with
          | nil => simp [charListLe] at hbc
          | cons z zs =>
              simp only [charListLe] at hab hbc ⊢
              by_cases hxy : charLt x y = true
              · by_cases hyz : charLt y z = true
                · have : charLt x z = true := by
                    simp [charLt] at *; omega
                  simp [this]
                · by_cases hzy : charLt z y = true
                  · simp [hyz, hzy] at hbc
                  · have hyzn := charLt_eq_of_not (by simpa using hyz) (by simpa using hzy)
                    have : charLt x z = true := by
                      simp [charLt] at *; omega
                    simp [this]
              · by_cases hyx : charLt y x = true
                · simp [hxy, hyx] at hab
                · have hxyn := charLt_eq_of_not (by simpa using hxy) (by simpa using hyx)
                  by_cases hyz : charLt y z = true
                  · have : charLt x z = true := by
                      simp [charLt] at *; omega
                    simp [this]
                  · by_cases hzy : charLt z y = true
                    · simp [hyz, hzy] at hbc
                    · have hyzn := charLt_eq_of_not (by simpa using hyz) (by simpa using hzy)
                      have hxz : charLt x z = false := by
                        simp [charLt] at *; omega
                      have hzx : charLt z x = false := by
                        simp [charLt] at *; omega
                      simp only [hxy, hyx] at hab
                      simp only [hyz, hzy] at hbc
                      simp only [hxz, hzx, if_false, Bool.false_eq_true]
                      exact ih ys zs (by simpa using hab) (by simpa using hbc)

theorem fieldLeB_total (p q : String × JsonVal) :
    fieldLeB p q = true ∨ fieldLeB q p = true := by
  simp only [fieldLeB, strLe]
  exact charListLe_total _ _

theorem fieldLeB_trans {p q r : String × JsonVal}
    (h1 : fieldLeB p q = true) (h2 : fieldLeB q r = true) : fieldLeB p r = true := by
  simp only [fieldLeB, strLe] at *
  exact charListLe_trans _ _ _ h1 h2

theorem mem_insertField (p x : String × JsonVal) (l : List (String × JsonVal)) :
    x ∈ insertField p l ↔ x = p ∨ x ∈ l := by
  induction l with
  | nil => simp [insertField]
  | cons q rest ih =>
      by_cases h : fieldLeB p q = true
      · simp [insertField, h]
        try tauto
      · simp [insertField, h, ih]
        try tauto

theorem mem_sortFields (x : String × JsonVal) (l : List (String × JsonVal)) :
    x ∈ sortFields l ↔ x ∈ l := by
  induction l with
  | nil => simp [sortFields]
  | cons p rest ih =>
      simp [sortFields, mem_insertField, ih]

theorem pairwise_insertField (p : String × JsonVal) (l : List (String × JsonVal))
    (hl : List.Pairwise fieldLe l) : List.Pairwise fieldLe (insertField p l) := by
  induction l with
  | nil => simp [insertField]
  | cons q rest ih =>
      obtain ⟨hq, hrest⟩ := List.pairwise_cons.mp hl
      by_cases h : fieldLeB p q = true
      · have hins : insertField p (q :: rest) = p :: q :: rest := by
          simp [insertField, h]
        rw [hins, List.pairwise_cons]
        refine ⟨?_, hl⟩
        intro x hx
        simp only [List.mem_cons] at hx
        rcases hx with hx | hx
        · rw [hx]; exact h
        · exact fieldLeB_trans h (hq x hx)
      · have hins : insertField p (q :: rest) = q :: insertField p rest := by
          simp [insertField, h]
        rw [hins, List.pairwise_cons]
        refine ⟨?_, ih hrest⟩
        intro x hx
        rw [mem_insertField] at hx
        rcases hx with hx | hx
        · rw [hx]
          rcases fieldLeB_total p q with hh | hh
          · exact absurd hh h
          · exact hh
        · exact hq x hx

theorem pairwise_sortFields (l : List (String × JsonVal)) :
    List.Pairwise fieldLe (sortFields l) := by
  induction l with
  | nil => simp [sortFields]
  | cons p rest ih => exact pairwise_insertField p (sortFields rest) ih

theorem jsonSortedFields_iff (fs : List (String × JsonVal)) :
    JsonSortedFields fs ↔ ∀ p ∈ fs, JsonSorted p.2 := by
  induction fs with
  | nil => simp [JsonSortedFields]
  | cons p rest ih => simp [JsonSortedFields, ih]

theorem jsonSortedList_iff (xs : List JsonVal) :
    JsonSortedList xs ↔ ∀ x ∈ xs, JsonSorted x := by
  induction xs with
  | nil => simp [JsonSortedList]
  | cons x rest ih => simp [JsonSortedList, ih]

theorem mem_deepSortFields (x : String × JsonVal) (fs : List (String × JsonVal)) :
    x ∈ deepSortFields fs ↔ ∃ p ∈ fs, x = (p.1, deepSort p.2) := by
  induction fs with
  | nil => simp [deepSortFields]
  | cons p rest ih =>
      obtain ⟨k, v⟩ := p
      simp [deepSortFields, ih]
      try tauto

theorem mem_deepSortList (x : JsonVal) (xs : List JsonVal) :
    x ∈ deepSortList xs ↔ ∃ y ∈ xs, x = deepSort y := by
  induction xs with
  | nil => simp [deepSortList]
  | cons y rest ih =>
      simp [deepSortList, ih]
      try tauto

theorem mem_propvalsToJsonFields (x : String × JsonVal) :
    ∀ (pvs : List (String × Value)),
      x ∈ propvalsToJsonFields pvs ↔ ∃ p ∈ pvs, x = (p.1, valToJson p.2) := by
  intro pvs
  induction pvs with
  | nil => simp [propvalsToJsonFields]
  | cons p rest ih =>
      obtain ⟨k, v⟩ := p
      simp [propvalsToJsonFields, ih]
      try tauto

theorem jsonSorted_deepSort_bounded : ∀ (n : Nat) (j : JsonVal),
    sizeOf j ≤ n → JsonSorted (deepSort j) := by
  intro n
  induction n with
  | zero =>
      intro j hj
      exfalso
      cases j <;> simp_arith at hj
  | succ n ih =>
      intro j hj
      cases j with
      | jstr s => simp [deepSort, JsonSorted]
      | jint i => simp [deepSort, JsonSorted]
      | jbool b => simp [deepSort, JsonSorted]
      | jarr xs =>
          simp only [deepSort, JsonSorted]
          rw [jsonSortedList_iff]
          intro x hx
          rw [mem_deepSortList] at hx
          obtain ⟨y, hy, rfl⟩ := hx
          apply ih
          have h1 : sizeOf y < sizeOf xs := List.sizeOf_lt_of_mem hy
          have h2 : sizeOf (JsonVal.jarr xs) = 1 + sizeOf xs := by simp_arith
          omega
      | jobj fs =>
          simp only [deepSort, JsonSorted]
          constructor
          · exact pairwise_sortFields _
          · rw [jsonSortedFields_iff]
            intro p hp
            rw [mem_sortFields, mem_deepSortFields] at hp
            obtain ⟨q, hq, rfl⟩ := hp
            apply ih
            have h1 : sizeOf q < sizeOf fs := List.sizeOf_lt_of_mem hq
            have h2 : sizeOf q.2 < sizeOf q := by
              obtain ⟨a, b⟩ := q
              simp_arith
            have h3 : sizeOf (JsonVal.jobj fs) = 1 + sizeOf fs := by simp_arith
            omega

theorem jsonSorted_deepSort (j : JsonVal) : JsonSorted (deepSort j) :=
  jsonSorted_deepSort_bounded (sizeOf j) j le_rfl

set_option maxHeartbeats 1000000 in
theorem into_resource_no_remove_key (c : Commit) (st : Store) (now : Int) (r : Resource)
    (hrem : c.remove = none ∨ c.remove = some [])
    (hr : c.intoResource st now = .ok r) : r.get urls.REMOVE = none := by
  unfold Commit.intoResource at hr
  cases hsub : valueNewAtomicUrl c.subject with
  | error e => simp [hsub, except_bind_error] at hr
  | ok v1 =>
    cases hcr : valueNewTimestamp c.createdAt with
    | error e => simp [hsub, hcr, except_bind_error, except_bind_ok] at hr
    | ok v2 =>
      cases hsg : valueNewAtomicUrl c.signer with
      | error e => simp [hsub, hcr, hsg, except_bind_error, except_bind_ok] at hr
      | ok v3 =>
        simp only [hsub, hcr, hsg, except_bind_ok, except_pure_eq, Except.ok.injEq] at hr
        subst hr
        rcases hrem with hrem | hrem <;>
          cases hset : c.set <;> cases hdes : c.destroy <;>
          cases hprevc : c.previousCommit <;> cases hsigf : c.signature <;>
          cases hpushf : c.push <;>
          simp only [hrem, hset, hdes, hprevc, hsigf, hpushf, List.isEmpty_nil, ite_true,
            eq_self_iff_true] <;>
          (try split_ifs) <;>
          simp [get_setPropvalUnsafe_ne, Resource.get, lookupPV,
            urls.SUBJECT, urls.IS_A, urls.CREATED_AT, urls.SIGNER, urls.SET,
            urls.REMOVE, urls.DESTROY, urls.PREVIOUS_COMMIT, urls.SIGNATURE,
            urls.PUSH, Resource.setPropvalUnsafe, insertPV]

set_option maxHeartbeats 1000000 in
theorem into_resource_no_push_key (c : Commit) (st : Store) (now : Int) (r : Resource)
    (hpush : c.push = none ∨ c.push = some [])
    (hr : c.intoResource st now = .ok r) : r.get urls.PUSH = none := by
  unfold Commit.intoResource at hr
  cases hsub : valueNewAtomicUrl c.subject with
  | error e => simp [hsub, except_bind_error] at hr
  | ok v1 =>
    cases hcr : valueNewTimestamp c.createdAt with
    | error e => simp [hsub, hcr, except_bind_error, except_bind_ok] at hr
    | ok v2 =>
      cases hsg : valueNewAtomicUrl c.signer with
      | error e => simp [hsub, hcr, hsg, except_bind_error, except_bind_ok] at hr
      | ok v3 =>
        simp only [hsub, hcr, hsg, except_bind_ok, except_pure_eq, Except.ok.injEq] at hr
        subst hr
        rcases hpush with hpushf | hpushf <;>
          cases hset : c.set <;> cases hdes : c.destroy <;>
          cases hprevc : c.previousCommit <;> cases hsigf : c.signature <;>
          cases hrem : c.remove <;>
          simp only [hrem, hset, hdes, hprevc, hsigf, hpushf, List.isEmpty_nil, ite_true,
            eq_self_iff_true] <;>
          (try split_ifs) <;>
          simp [get_setPropvalUnsafe_ne, Resource.get, lookupPV,
            urls.SUBJECT, urls.IS_A, urls.CREATED_AT, urls.SIGNER, urls.SET,
            urls.REMOVE, urls.DESTROY, urls.PREVIOUS_COMMIT, urls.SIGNATURE,
            urls.PUSH, Resource.setPropvalUnsafe, insertPV]

set_option maxHeartbeats 1000000 in
theorem get_intoResource_isa (c : Commit) (st : Store) (now : Int) (r : Resource)
    (hr : c.intoResource st now = .ok r) :
    r.get urls.IS_A = some (.resourceArray [.subject urls.COMMIT]) := by
  unfold Commit.intoResource at hr
  cases hsub : valueNewAtomicUrl c.subject with
  | error e => simp [hsub, except_bind_error] at hr
  | ok v1 =>
    cases hcr : valueNewTimestamp c.createdAt with
    | error e => simp [hsub, hcr, except_bind_error, except_bind_ok] at hr
    | ok v2 =>
      cases hsg : valueNewAtomicUrl c.signer with
      | error e => simp [hsub, hcr, hsg, except_bind_error, except_bind_ok] at hr
      | ok v3 =>
        simp only [hsub, hcr, hsg, except_bind_ok, except_pure_eq, Except.ok.injEq] at hr
        subst hr
        cases hrem : c.remove <;>
          cases hset : c.set <;> cases hdes : c.destroy <;>
          cases hprevc : c.previousCommit <;> cases hsigf : c.signature <;>
          cases hpushf : c.push <;>
          simp only [hrem, hset, hdes, hprevc, hsigf, hpushf, List.isEmpty_nil, ite_true,
            eq_self_iff_true] <;>
          (try split_ifs) <;>
          simp [get_setPropvalUnsafe_ne, get_setPropvalUnsafe_self, Resource.get, lookupPV,
            urls.SUBJECT, urls.IS_A, urls.CREATED_AT, urls.SIGNER, urls.SET,
            urls.REMOVE, urls.DESTROY, urls.PREVIOUS_COMMIT, urls.SIGNATURE,
            urls.PUSH, Resource.setPropvalUnsafe, insertPV]

theorem applyRemoveList_spec (subject : String) (unedited : Resource) (b : Bool)
    (P : String) (habs : unedited.get P = none) :
    ∀ (l : List String) (res : Resource) (acc : List Atom),
      (∀ a ∈ acc, a.property ≠ P) → res.get P = none →
      (∀ a ∈ (applyRemoveList subject unedited b l res acc).2, a.property ≠ P) ∧
      ((applyRemoveList subject unedited b l res acc).1).get P = none := by
  intro l
  induction l with
  | nil =>
      intro res acc hacc hres
      exact ⟨hacc, hres⟩
  | cons q rest ih =>
      intro res acc hacc hres
      have hres' : (res.removePropval q).get P = none := by
        rw [get_removePropval]
        by_cases h : q = P <;> simp [h, hres]
      apply ih
      · intro a ha
        by_cases hb : b = true
        · subst hb
          simp only [if_true] at ha
          cases hget : unedited.get q with
          | none => simp [hget] at ha; exact hacc a ha
          | some val =>
              simp only [hget, List.mem_append] at ha
              rcases ha with ha | ha
              · exact hacc a ha
              · simp only [List.mem_singleton] at ha
                subst ha
                simp only
                intro hqP
                rw [hqP, habs] at hget
                cases hget
        · simp only [Bool.not_eq_true] at hb
          simp only [hb, if_false] at ha
          exact hacc a ha
      · exact hres'

/- ------------------------------------------------------------------ -/
/- Concrete fixtures for the claims and their witnesses.               -/
/- ------------------------------------------------------------------ -/

/-- Oracles that accept everything: rights granted, schema satisfied,
signatures valid. -/
def trivialOracles : Oracles :=
  { verify := fun _ _ _ => true
    checkAppend := fun _ _ _ => .ok ()
    checkWrite := fun _ _ _ => .ok ()
    checkRequiredProps := fun _ _ => .ok () }

/-- CommitOpts with every validation off. -/
def offOpts : CommitOpts :=
  { validateSchema := false, validateSignature := false, validateTimestamp := false
    validateRights := false, validatePreviousCommit := false, updateIndex := false
    validateForAgent := none, validateSubjectUrlParent := false }

/-- Options with only the parent-prefix check on. -/
def parentOpts : CommitOpts :=
  { offOpts with validateSubjectUrlParent := true }

/-- Options with only the previous-commit check on. -/
def prevOpts : CommitOpts :=
  { offOpts with validatePreviousCommit := true }

/-- Options with only the rights check on. -/
def rightsOpts : CommitOpts :=
  { offOpts with validateRights := true }

/-- An empty store at `https://h`, validating every value. -/
def plainStore : Store :=
  { resources := [], serverUrl := "https://h", selfUrl := some "https://h/",
    propValid := fun _ _ => true }

/-- The Commit of the `serialize_commit` golden test (commit.rs). -/
def goldenCommit : Commit :=
  { subject := "https://localhost/test"
    createdAt := 1603638837
    signer := "https://localhost/author"
    set := some [(urls.SHORTNAME, Value.str "shortname"),
                 (urls.DESCRIPTION, Value.str "Some description")]
    remove := some [urls.IS_A]
    destroy := some false
    signature := none
    push := none
    previousCommit := none
    url := none }

/-- The store of the golden test (its contents do not enter the
serialization). -/
def goldenStore : Store :=
  { resources := [], serverUrl := "https://localhost", selfUrl := none,
    propValid := fun _ _ => true }

/-- The golden canonical serialization string of the `serialize_commit`
test (commit.rs), byte for byte. -/
def goldenSerialized : String :=
  "\x7b\"https://atomicdata.dev/properties/createdAt\":1603638837,\"https://atomicdata.dev/properties/isA\":[\"https://atomicdata.dev/classes/Commit\"],\"https://atomicdata.dev/properties/remove\":[\"https://atomicdata.dev/properties/isA\"],\"https://atomicdata.dev/properties/set\":\x7b\"https://atomicdata.dev/properties/description\":\"Some description\",\"https://atomicdata.dev/properties/shortname\":\"shortname\"\x7d,\"https://atomicdata.dev/properties/signer\":\"https://localhost/author\",\"https://atomicdata.dev/properties/subject\":\"https://localhost/test\"\x7d"

/-- The key-sorted JSON tree of the golden commit. -/
def goldenJson : JsonVal :=
  .jobj [
    (urls.CREATED_AT, .jint 1603638837),
    (urls.IS_A, .jarr [.jstr urls.COMMIT]),
    (urls.REMOVE, .jarr [.jstr urls.IS_A]),
    (urls.SET, .jobj [(urls.DESCRIPTION, .jstr "Some description"),
                      (urls.SHORTNAME, .jstr "shortname")]),
    (urls.SIGNER, .jstr "https://localhost/author"),
    (urls.SUBJECT, .jstr "https://localhost/test")]

/-- An existing resource carrying a `lastCommit` value. -/
def prevResource : Resource :=
  ⟨"https://h/x", [(urls.LAST_COMMIT, .atomicUrl "https://h/commits/abc")]⟩

/-- A store holding `prevResource`. -/
def prevStore : Store :=
  { plainStore with resources := [("https://h/x", prevResource)] }

/-- The same store without a self URL. -/
def noSelfStore : Store :=
  { prevStore with selfUrl := none }

/-- A commit against `https://h/x` carrying no `previousCommit`. -/
def prevCommit : Commit :=
  { subject := "https://h/x", createdAt := 100, signer := "https://h/agent"
    set := none, remove := none, destroy := none, signature := none
    push := none, previousCommit := none, url := none }

/-- Creating new `https://h/a/b` with parent `https://h/c` (the failing
parent-prefix scenario of spec §8). -/
def parentCommitBad : Commit :=
  { prevCommit with
      subject := "https://h/a/b"
      set := some [(urls.PARENT, Value.atomicUrl "https://h/c")] }

/-- Creating new `https://h/a/b` with parent `https://h/a` (the passing
parent-prefix scenario of spec §8). -/
def parentCommitGood : Commit :=
  { prevCommit with
      subject := "https://h/a/b"
      set := some [(urls.PARENT, Value.atomicUrl "https://h/a")] }

/-- The rejected subject of spec §8 scenario 3: a query parameter. -/
def queryCommit : Commit :=
  { prevCommit with subject := "https://h/?q=1" }

/-- A resource holding a one-element `ResourceArray` at `https://h/arr`. -/
def pushResource : Resource :=
  ⟨"https://h/x", [("https://h/arr", .resourceArray [.subject "https://h/e1"])]⟩

/-- A commit pushing one element to `https://h/arr`. -/
def pushCommit : Commit :=
  { prevCommit with
      push := some [("https://h/arr", Value.resourceArray [.subject "https://h/e2"])] }

/-- A commit removing a property that the target does not carry. -/
def removeCommit : Commit :=
  { prevCommit with remove := some ["https://h/absent"] }

/-- A commit whose `remove` list and `push` map are both present and
empty. -/
def c10commit : Commit :=
  { subject := "https://h/x", createdAt := 1, signer := "https://h/agent"
    set := none, remove := some [], destroy := none, signature := none
    push := some [], previousCommit := none, url := none }

/-- The resource `c10commit.intoResource plainStore 0` produces: neither
a `remove` nor a `push` property appears. -/
def c10resource : Resource :=
  ⟨"https://h/commits-unsigned/0",
   [(urls.SUBJECT, .atomicUrl "https://h/x"),
    (urls.IS_A, .resourceArray [.subject urls.COMMIT]),
    (urls.CREATED_AT, .timestamp 1),
    (urls.SIGNER, .atomicUrl "https://h/agent")]⟩

/-- A store whose self URL has the two-label host `example.com`. -/
def bugSelfStore : Store :=
  { resources := [], serverUrl := "https://example.com",
    selfUrl := some "https://example.com/", propValid := fun _ _ => true }

/-- Modelled from the spec: the claim's host rule for
`is_external_subject` — "the subject's host, after stripping one
leftmost label" (spec §4.3).  Named after the spec's words, to be
compared with the last-label comparison the source performs. -/
def specStripOneLabel (host : String) : String :=
  match splitFirst '.' host.data with
  | some (_, rest) => String.mk rest
  | none => host

/- ------------------------------------------------------------------ -/
/- The claims.                                                         -/
/- ------------------------------------------------------------------ -/

/-- C9: `check_timestamp(t)` returns an error iff `t > now + 10_000`
milliseconds; every `created_at` at most 10 seconds in the future —
including arbitrarily old timestamps — passes the check; and hence
`apply_opts` with `validate_timestamp` on rejects a commit created
beyond the clock-skew window. -/
theorem c9_check_timestamp_window (now t : Int) :
    (checkTimestamp now t = .ok () ↔ t ≤ now + 10000) ∧
    ((∃ e, checkTimestamp now t = .error e) ↔ t > now + 10000) ∧
    (∀ (c : Commit) (st : Store) (opts : CommitOpts) (O : Oracles) (u : ParsedUrl),
      opts.validateTimestamp = true → opts.validateSignature = false →
      parseUrl c.subject = some u → u.query.isSome = false →
      c.createdAt = t → t > now + 10000 →
      errKindOf (c.applyOpts st opts O now) = some .validation) := by
  refine ⟨?_, ?_, ?_⟩
  · unfold checkTimestamp ACCEPTABLE_TIME_DIFFERENCE
    constructor
    · intro h
      by_contra hc
      simp only [not_le] at hc
      simp [hc] at h
    · intro h
      have : ¬ t > now + 10000 := by omega
      simp [this]
  · unfold checkTimestamp ACCEPTABLE_TIME_DIFFERENCE
    constructor
    · rintro ⟨e, he⟩
      by_contra hc
      simp only [gt_iff_lt, not_lt] at hc
      have : ¬ t > now + 10000 := by omega
      simp [this] at he
    · intro h
      exact ⟨⟨.validation, "Commit CreatedAt timestamp must lie in the past"⟩, by simp [h]⟩
  · intro c st opts O u hflag hsig hurl hq hc ht
    have hcheck : checkTimestamp now c.createdAt =
        .error ⟨.validation, "Commit CreatedAt timestamp must lie in the past"⟩ := by
      unfold checkTimestamp ACCEPTABLE_TIME_DIFFERENCE
      rw [hc]
      simp [ht]
    unfold Commit.applyOpts
    simp [hurl, hq, hsig, hflag, hcheck, except_bind_ok, except_bind_error,
      except_throw_eq, except_throw_bind, except_pure_eq, errKindOf]

/-- C8: `apply_opts` fails with a Validation error — before any state
change and regardless of the CommitOpts flags — whenever the subject is
not a parseable absolute URL or its URL carries a query string; in the
embedding an error result leaves the store untouched by construction. -/
theorem c8_apply_opts_rejects_bad_subject (c : Commit) (st : Store) (opts : CommitOpts)
    (O : Oracles) (now : Int)
    (h : parseUrl c.subject = none ∨
      ∃ u, parseUrl c.subject = some u ∧ u.query.isSome = true) :
    errKindOf (c.applyOpts st opts O now) = some .validation := by
  unfold Commit.applyOpts
  rcases h with h | ⟨u, hu, hq⟩
  · simp [h, except_bind_error, except_bind_ok, except_throw_eq, errKindOf]
  · simp [hu, hq, except_bind_error, except_bind_ok, except_throw_eq, except_pure_eq,
      errKindOf]

/-- C8 witness: the concrete subject `https://h/?q=1` of spec §8
scenario 3 is rejected with Validation whatever the options. -/
theorem c8_apply_opts_rejects_bad_subject_witness :
    errKindOf (queryCommit.applyOpts prevStore offOpts trivialOracles 0) =
      some .validation :=
  c8_apply_opts_rejects_bad_subject queryCommit prevStore offOpts trivialOracles 0
    (Or.inr ⟨⟨"https", "h", some "q=1"⟩, rfl, rfl⟩)

/-- C7: a commit whose `remove` list contains a property absent from the
target resource applies successfully, produces no index removal for that
property, and leaves the resource unchanged at that property. -/
theorem c7_apply_changes_remove_absent (c : Commit) (r : Resource) (st : Store) (b : Bool)
    (P : String) (l : List String)
    (hrem : c.remove = some l) (hset : c.set = none) (hpush : c.push = none)
    (hdes : c.destroy = none) (hmem : P ∈ l) (habs : r.get P = none) :
    ∃ r' ra, c.applyChanges r st b = .ok (r', ra, ([] : List Atom)) ∧
      (∀ a ∈ ra, a.property ≠ P) ∧ r'.get P = none := by
  have := hmem
  have hspec := applyRemoveList_spec r.subject r b P habs l r []
    (by intro a ha; cases ha) habs
  cases hx : applyRemoveList r.subject r b l r [] with
  | mk r' ra =>
      rw [hx] at hspec
      refine ⟨r', ra, ?_, hspec.1, hspec.2⟩
      unfold Commit.applyChanges
      simp [hrem, hset, hpush, hdes, hx, except_bind_ok, except_pure_eq]

/-- C7 witness: removing the absent `https://h/absent` from a concrete
resource succeeds with no atoms and no change. -/
theorem c7_apply_changes_remove_absent_witness :
    ∃ r' ra, removeCommit.applyChanges prevResource plainStore true =
        .ok (r', ra, ([] : List Atom)) ∧
      (∀ a ∈ ra, a.property ≠ "https://h/absent") ∧
      r'.get "https://h/absent" = none :=
  c7_apply_changes_remove_absent removeCommit prevResource plainStore true
    "https://h/absent" ["https://h/absent"] rfl rfl rfl rfl (by simp) rfl

/-- C6: a commit with `push[P] = Vs` appends through `apply_changes`:
with no existing value the result at `P` is exactly `Vs`; with an
existing ResourceArray `A` the result is `A ++ Vs` and, when the index
is updated, exactly one atom per appended element is recorded; a
non-array existing value is an error. -/
theorem c6_apply_changes_push (c : Commit) (r : Resource) (st : Store) (b : Bool)
    (P : String) (vs : List SubResource)
    (hpush : c.push = some [(P, Value.resourceArray vs)])
    (hset : c.set = none) (hrem : c.remove = none) (hdes : c.destroy = none) :
    ((r.get P = none →
      c.applyChanges r st b = .ok
        (r.setPropvalUnsafe P (.resourceArray vs), [],
         if b then vs.map (fun sr => (⟨r.subject, P, subResourceToValue sr⟩ : Atom)) else []) ∧
      (r.setPropvalUnsafe P (.resourceArray vs)).get P = some (.resourceArray vs)) ∧
     (∀ arr, r.get P = some (.resourceArray arr) →
      c.applyChanges r st b = .ok
        (r.setPropvalUnsafe P (.resourceArray (arr ++ vs)), [],
         if b then vs.map (fun sr => (⟨r.subject, P, subResourceToValue sr⟩ : Atom)) else []) ∧
      (r.setPropvalUnsafe P (.resourceArray (arr ++ vs))).get P =
        some (.resourceArray (arr ++ vs))) ∧
     (∀ v, r.get P = some v → (∀ arr, v ≠ .resourceArray arr) →
      c.applyChanges r st b =
        .error ⟨.validation, "Wrong datatype when pushing to array"⟩)) := by
  refine ⟨?_, ?_, ?_⟩
  · intro habs
    constructor
    · unfold Commit.applyChanges
      simp [hrem, hset, hpush, hdes, applyPushList, habs,
        except_bind_ok, except_pure_eq, subject_setPropvalUnsafe]
    · simp [get_setPropvalUnsafe_self]
  · intro arr harr
    constructor
    · unfold Commit.applyChanges
      simp [hrem, hset, hpush, hdes, applyPushList, harr,
        except_bind_ok, except_pure_eq, subject_setPropvalUnsafe]
    · simp [get_setPropvalUnsafe_self]
  · intro v hv hna
    unfold Commit.applyChanges
    cases v with
    | resourceArray arr => exact absurd rfl (hna arr)
    | str s =>
        simp [hrem, hset, hpush, hdes, applyPushList, hv,
          except_bind_ok, except_pure_eq, except_throw_bind, except_bind_error,
          subject_setPropvalUnsafe]
    | markdown s =>
        simp [hrem, hset, hpush, hdes, applyPushList, hv,
          except_bind_ok, except_pure_eq, except_throw_bind, except_bind_error,
          subject_setPropvalUnsafe]
    | slug s =>
        simp [hrem, hset, hpush, hdes, applyPushList, hv,
          except_bind_ok, except_pure_eq, except_throw_bind, except_bind_error,
          subject_setPropvalUnsafe]
    | date s =>
        simp [hrem, hset, hpush, hdes, applyPushList, hv,
          except_bind_ok, except_pure_eq, except_throw_bind, except_bind_error,
          subject_setPropvalUnsafe]
    | int i =>
        simp [hrem, hset, hpush, hdes, applyPushList, hv,
          except_bind_ok, except_pure_eq, except_throw_bind, except_bind_error,
          subject_setPropvalUnsafe]
    | timestamp i =>
        simp [hrem, hset, hpush, hdes, applyPushList, hv,
          except_bind_ok, except_pure_eq, except_throw_bind, except_bind_error,
          subject_setPropvalUnsafe]
    | bool bb =>
        simp [hrem, hset, hpush, hdes, applyPushList, hv,
          except_bind_ok, except_pure_eq, except_throw_bind, except_bind_error,
          subject_setPropvalUnsafe]
    | atomicUrl s =>
        simp [hrem, hset, hpush, hdes, applyPushList, hv,
          except_bind_ok, except_pure_eq, except_throw_bind, except_bind_error,
          subject_setPropvalUnsafe]
    | nestedResource pv =>
        simp [hrem, hset, hpush, hdes, applyPushList, hv,
          except_bind_ok, except_pure_eq, except_throw_bind, except_bind_error,
          subject_setPropvalUnsafe]

/-- C6 witness: pushing `[e2]` onto a resource holding `[e1]` yields
`[e1, e2]` with exactly one added index atom. -/
theorem c6_apply_changes_push_witness :
    pushCommit.applyChanges pushResource plainStore true = .ok
      (pushResource.setPropvalUnsafe "https://h/arr"
        (.resourceArray [.subject "https://h/e1", .subject "https://h/e2"]),
       [],
       if true then
         [SubResource.subject "https://h/e2"].map
           (fun sr => (⟨pushResource.subject, "https://h/arr",
             subResourceToValue sr⟩ : Atom))
       else []) ∧
    (pushResource.setPropvalUnsafe "https://h/arr"
      (.resourceArray [.subject "https://h/e1", .subject "https://h/e2"])).get
        "https://h/arr" =
      some (.resourceArray [.subject "https://h/e1", .subject "https://h/e2"]) :=
  (c6_apply_changes_push pushCommit pushResource plainStore true "https://h/arr"
    [.subject "https://h/e2"] rfl rfl rfl rfl).2.1 [.subject "https://h/e1"] rfl

/-- C2: with `validate_previous_commit` on and the subject already in
the store, a resource carrying `lastCommit` forces the Commit to carry
an equal `previousCommit`: a differing or missing one is a Conflict
error, while a resource without `lastCommit` is accepted — applying with
the check on equals applying with it off. -/
theorem c2_apply_opts_previous_commit (c : Commit) (st : Store) (opts : CommitOpts)
    (O : Oracles) (now : Int) (r : Resource)
    (hres : st.getResource c.subject = some r)
    (hflag : opts.validatePreviousCommit = true) :
    ((∀ v u cr, r.get urls.LAST_COMMIT = some v →
      parseUrl c.subject = some u → u.query.isSome = false →
      opts.validateSignature = false → opts.validateTimestamp = false →
      c.intoResource st now = .ok cr →
      (c.previousCommit = none ∨ (∃ p, c.previousCommit = some p ∧ p ≠ valueToString v)) →
      errKindOf (c.applyOpts st opts O now) = some .conflict)
     ∧ (r.get urls.LAST_COMMIT = none →
        c.applyOpts st opts O now =
          c.applyOpts st { opts with validatePreviousCommit := false } O now)) := by
  constructor
  · intro v u cr hlast hurl hq hsig hts hinto hprev
    unfold Commit.applyOpts
    rcases hprev with hnone | ⟨p, hp, hne⟩
    · simp [hurl, hq, hsig, hts, hinto, hres, hflag, hlast, hnone,
        except_bind_ok, except_bind_error, except_throw_eq, except_throw_bind,
        except_pure_eq, errKindOf]
    · simp [hurl, hq, hsig, hts, hinto, hres, hflag, hlast, hp, Ne.symm hne,
        except_bind_ok, except_bind_error, except_throw_eq, except_throw_bind,
        except_pure_eq, errKindOf]
  · intro hlast
    unfold Commit.applyOpts
    simp [hres, hflag, hlast, except_bind_ok, except_bind_error, except_throw_eq,
      except_throw_bind, except_pure_eq]

/-- C2 witness: the concrete commit without `previousCommit` against a
resource carrying `lastCommit` is rejected with Conflict. -/
theorem c2_apply_opts_previous_commit_witness :
    errKindOf (prevCommit.applyOpts prevStore prevOpts trivialOracles 0) =
      some .conflict :=
  (c2_apply_opts_previous_commit prevCommit prevStore prevOpts trivialOracles 0
    prevResource rfl rfl).1 _ _ _ rfl rfl rfl rfl rfl rfl (Or.inl rfl)

/-- C3: with `validate_rights` on, a new subject is checked for the
append right on the NEW resource, while an existing subject is checked
for the write right on the OLD resource — never the new one: the outcome
is pinned to the oracle's verdict at that resource, for every oracle.
An old resource without a parent gets the store's self URL injected as
default parent before the write check, and a store without a self URL
errors. -/
theorem c3_apply_opts_rights_old_resource (c : Commit) (st : Store) (opts : CommitOpts)
    (O : Oracles) (now : Int) (u : ParsedUrl) (cr : Resource)
    (hrights : opts.validateRights = true)
    (hurl : parseUrl c.subject = some u) (hq : u.query.isSome = false)
    (hsig : opts.validateSignature = false) (hts : opts.validateTimestamp = false)
    (hinto : c.intoResource st now = .ok cr) :
    (∀ (rnew : Resource) (ra aa : List Atom),
      st.getResource c.subject = none →
      c.applyChanges ⟨c.subject, []⟩ st false = .ok (rnew, ra, aa) →
      opts.validateSubjectUrlParent = false →
      ((O.checkAppend st rnew (opts.validateForAgent.getD c.signer) = .ok () →
        c.applyOpts st opts O now =
          c.applyOpts st { opts with validateRights := false } O now) ∧
       (∀ e, O.checkAppend st rnew (opts.validateForAgent.getD c.signer) = .error e →
        c.applyOpts st opts O now = .error e))) ∧
    (∀ (r rnew : Resource) (ra aa : List Atom) (pv : Value),
      st.getResource c.subject = some r →
      opts.validatePreviousCommit = false →
      c.applyChanges r st false = .ok (rnew, ra, aa) →
      r.get urls.PARENT = some pv →
      ((O.checkWrite st r (opts.validateForAgent.getD c.signer) = .ok () →
        c.applyOpts st opts O now =
          c.applyOpts st { opts with validateRights := false } O now) ∧
       (∀ e, O.checkWrite st r (opts.validateForAgent.getD c.signer) = .error e →
        c.applyOpts st opts O now = .error e))) ∧
    (∀ (r rnew r' : Resource) (ra aa : List Atom) (su : String),
      st.getResource c.subject = some r →
      opts.validatePreviousCommit = false →
      c.applyChanges r st false = .ok (rnew, ra, aa) →
      r.get urls.PARENT = none →
      st.selfUrl = some su →
      r.setPropval urls.PARENT (.atomicUrl su) st = .ok r' →
      (∀ e, O.checkWrite st r' (opts.validateForAgent.getD c.signer) = .error e →
        c.applyOpts st opts O now = .error e)) ∧
    (∀ (r rnew : Resource) (ra aa : List Atom),
      st.getResource c.subject = some r →
      opts.validatePreviousCommit = false →
      c.applyChanges r st false = .ok (rnew, ra, aa) →
      r.get urls.PARENT = none →
      st.selfUrl = none →
      errKindOf (c.applyOpts st opts O now) = some .internal) := by
  refine ⟨?_, ?_, ?_, ?_⟩
  · intro rnew ra aa hres happly hpflag
    constructor
    · intro hok
      unfold Commit.applyOpts
      simp [hres, happly, hpflag, hrights, hurl, hq, hsig, hts, hinto, hok,
        except_bind_ok, except_bind_error, except_throw_eq, except_throw_bind,
        except_pure_eq]
    · intro e herr
      unfold Commit.applyOpts
      simp [hres, happly, hpflag, hrights, hurl, hq, hsig, hts, hinto, herr,
        except_bind_ok, except_bind_error, except_throw_eq, except_throw_bind,
        except_pure_eq]
  · intro r rnew ra aa pv hres hprev happly hpar
    constructor
    · intro hok
      unfold Commit.applyOpts
      simp [hres, hprev, happly, hpar, hrights, hurl, hq, hsig, hts, hinto, hok,
        except_bind_ok, except_bind_error, except_throw_eq, except_throw_bind,
        except_pure_eq]
    · intro e herr
      unfold Commit.applyOpts
      simp [hres, hprev, happly, hpar, hrights, hurl, hq, hsig, hts, hinto, herr,
        except_bind_ok, except_bind_error, except_throw_eq, except_throw_bind,
        except_pure_eq]
  · intro r rnew r' ra aa su hres hprev happly hpar hself hset e herr
    unfold Commit.applyOpts
    simp [hres, hprev, happly, hpar, hself, hset, hrights, hurl, hq, hsig, hts,
      hinto, herr, except_bind_ok, except_bind_error, except_throw_eq,
      except_throw_bind, except_pure_eq]
  · intro r rnew ra aa hres hprev happly hpar hself
    unfold Commit.applyOpts
    simp [hres, hprev, happly, hpar, hself, hrights, hurl, hq, hsig, hts, hinto,
      except_bind_ok, except_bind_error, except_throw_eq, except_throw_bind,
      except_pure_eq, errKindOf]

/-- C3 witness: an existing resource without parent in a store without a
self URL errors when the rights check runs. -/
theorem c3_apply_opts_rights_old_resource_witness :
    errKindOf (prevCommit.applyOpts noSelfStore rightsOpts trivialOracles 0) =
      some .internal :=
  (c3_apply_opts_rights_old_resource prevCommit noSelfStore rightsOpts trivialOracles 0
    _ _ rfl rfl rfl rfl rfl rfl).2.2.2 _ _ _ _ rfl rfl rfl rfl rfl

set_option maxRecDepth 10000 in
/-- C5: with `validate_subject_url_parent` on and a new subject whose
resulting resource declares a parent, the subject string must start with
the parent subject or the commit fails with Conflict; when the prefix
rule holds the check is transparent, and the concrete scenarios of spec
§8 behave as claimed: parent `https://h/c` under subject `https://h/a/b`
fails, parent `https://h/a` succeeds. -/
theorem c5_apply_opts_parent_prefix :
    (∀ (c : Commit) (st : Store) (opts : CommitOpts) (O : Oracles) (now : Int)
      (u : ParsedUrl) (cr rnew : Resource) (ra aa : List Atom) (pv : Value),
      st.getResource c.subject = none →
      opts.validateSubjectUrlParent = true →
      parseUrl c.subject = some u → u.query.isSome = false →
      opts.validateSignature = false → opts.validateTimestamp = false →
      c.intoResource st now = .ok cr →
      c.applyChanges ⟨c.subject, []⟩ st false = .ok (rnew, ra, aa) →
      rnew.get urls.PARENT = some pv →
      strStartsWith c.subject (valueToString pv) = false →
      errKindOf (c.applyOpts st opts O now) = some .conflict) ∧
    (∀ (c : Commit) (st : Store) (opts : CommitOpts) (O : Oracles) (now : Int)
      (rnew : Resource) (ra aa : List Atom),
      st.getResource c.subject = none →
      c.applyChanges ⟨c.subject, []⟩ st false = .ok (rnew, ra, aa) →
      (∀ pv, rnew.get urls.PARENT = some pv →
        strStartsWith c.subject (valueToString pv) = true) →
      c.applyOpts st opts O now =
        c.applyOpts st { opts with validateSubjectUrlParent := false } O now) ∧
    errKindOf (parentCommitBad.applyOpts plainStore parentOpts trivialOracles 0) =
      some .conflict ∧
    errKindOf (parentCommitGood.applyOpts plainStore parentOpts trivialOracles 0) =
      none := by
  refine ⟨?_, ?_, ?_, ?_⟩
  · intro c st opts O now u cr rnew ra aa pv hres hflag hurl hq hsig hts hinto
      happly hpar hsw
    unfold Commit.applyOpts
    simp [hres, hflag, hurl, hq, hsig, hts, hinto, happly, hpar, hsw,
      except_bind_ok, except_bind_error, except_throw_eq, except_throw_bind,
      except_pure_eq, errKindOf]
  · intro c st opts O now rnew ra aa hres happly hpre
    unfold Commit.applyOpts
    cases hpar : rnew.get urls.PARENT with
    | none =>
        simp [hres, happly, hpar, except_bind_ok, except_bind_error,
          except_throw_eq, except_throw_bind, except_pure_eq]
    | some pv =>
        have hsw := hpre pv hpar
        simp [hres, happly, hpar, hsw, except_bind_ok, except_bind_error,
          except_throw_eq, except_throw_bind, except_pure_eq]
  · rfl
  · rfl

/-- C5 witness: the failing scenario applied through the general
parent-prefix part of the claim. -/
theorem c5_apply_opts_parent_prefix_witness :
    errKindOf (parentCommitBad.applyOpts plainStore parentOpts trivialOracles 0) =
      some .conflict :=
  c5_apply_opts_parent_prefix.1 parentCommitBad plainStore parentOpts trivialOracles 0
    _ _ _ _ _ _ rfl rfl rfl rfl rfl rfl rfl rfl rfl rfl

/-- C10: `into_resource` omits the `remove` property when the remove
list is empty and the `push` property when the push map is empty;
consequently a Commit with `remove = Some([])` and/or `push = Some({})`
yields exactly the same Commit resource and the same canonical
serialization — the signing input — as the identical Commit with those
fields absent. -/
theorem c10_into_resource_empty_remove_push (c : Commit) (st : Store) (now : Int) :
    (({ c with remove := some [] } : Commit).intoResource st now =
      ({ c with remove := none } : Commit).intoResource st now) ∧
    (({ c with push := some [] } : Commit).intoResource st now =
      ({ c with push := none } : Commit).intoResource st now) ∧
    (({ c with remove := some [], push := some [] } : Commit).serializeDeterministicallyJsonAd
        st now =
      ({ c with remove := none, push := none } : Commit).serializeDeterministicallyJsonAd
        st now) ∧
    (∀ r, ({ c with remove := some [] } : Commit).intoResource st now = .ok r →
      r.get urls.REMOVE = none) ∧
    (∀ r, ({ c with push := some [] } : Commit).intoResource st now = .ok r →
      r.get urls.PUSH = none) := by
  refine ⟨rfl, rfl, rfl, ?_, ?_⟩
  · intro r hr
    exact into_resource_no_remove_key _ st now r (Or.inr rfl) hr
  · intro r hr
    exact into_resource_no_push_key _ st now r (Or.inr rfl) hr

/-- C10 witness: a concrete commit with empty `remove` and `push`
converts to a resource carrying neither key, equal to the conversion of
the same commit with the fields absent. -/
theorem c10_into_resource_empty_remove_push_witness :
    c10commit.intoResource plainStore 0 = .ok c10resource ∧
    c10resource.get urls.REMOVE = none ∧
    c10resource.get urls.PUSH = none ∧
    c10commit.intoResource plainStore 0 =
      ({ c10commit with remove := none, push := none } : Commit).intoResource plainStore 0 :=
  ⟨rfl,
   (c10_into_resource_empty_remove_push c10commit plainStore 0).2.2.2.1 c10resource rfl,
   (c10_into_resource_empty_remove_push c10commit plainStore 0).2.2.2.2 c10resource rfl,
   rfl⟩

set_option maxRecDepth 10000 in
/-- C1: `serialize_deterministically_json_ad` reproduces the golden
string of the `serialize_commit` test byte for byte, and for every
Commit whose serialization succeeds the produced JSON object never
contains the `signature` key, has its keys in lexicographic order at
every nesting level (array order preserved), and carries the injected
`isA = [Commit]` array. -/
theorem c1_serialize_deterministically_golden :
    (goldenCommit.serializeDeterministicallyJsonAd goldenStore 0 = .ok goldenSerialized) ∧
    (∀ (c : Commit) (st : Store) (now : Int) (j : JsonVal),
      c.serializeJson st now = .ok j →
      JsonSorted j ∧
      (∀ k ∈ j.fields.map Prod.fst, k ≠ urls.SIGNATURE) ∧
      (urls.IS_A, JsonVal.jarr [JsonVal.jstr urls.COMMIT]) ∈ j.fields) := by
  constructor
  · rfl
  · intro c st now j hj
    unfold Commit.serializeJson at hj
    cases hri : c.intoResource st now with
    | error e =>
        rw [hri] at hj
        simp [except_bind_error] at hj
    | ok r =>
        rw [hri] at hj
        simp only [except_bind_ok, except_pure_eq, Except.ok.injEq] at hj
        subst hj
        refine ⟨jsonSorted_deepSort _, ?_, ?_⟩
        · intro k hk
          simp only [deepSort, JsonVal.fields, List.mem_map] at hk
          obtain ⟨x, hx, rfl⟩ := hk
          rw [mem_sortFields, mem_deepSortFields] at hx
          obtain ⟨p, hp, rfl⟩ := hx
          rw [mem_propvalsToJsonFields] at hp
          obtain ⟨q, hq, rfl⟩ := hp
          apply fst_removePV_ne r.propvals urls.SIGNATURE
          simp only [Resource.removePropval] at hq
          exact List.mem_map_of_mem Prod.fst hq
        · have hisa := get_intoResource_isa c st now r hri
          have hlook : lookupPV (removePV r.propvals urls.SIGNATURE) urls.IS_A =
              some (.resourceArray [.subject urls.COMMIT]) := by
            rw [lookupPV_removePV_ne _ _ _ (by decide)]
            exact hisa
          have hmem := lookupPV_some_mem _ _ _ hlook
          simp only [deepSort, JsonVal.fields]
          rw [mem_sortFields, mem_deepSortFields]
          refine ⟨(urls.IS_A, valToJson (.resourceArray [.subject urls.COMMIT])), ?_, ?_⟩
          · rw [mem_propvalsToJsonFields]
            exact ⟨(urls.IS_A, .resourceArray [.subject urls.COMMIT]),
              by simpa [Resource.removePropval] using hmem, rfl⟩
          · simp [valToJson, subResListToJson, subResToJson, deepSort, deepSortList]

set_option maxRecDepth 10000 in
/-- C1 witness: the golden commit's JSON tree, computed concretely, is
key-sorted and carries the injected `isA` array. -/
theorem c1_serialize_deterministically_golden_witness :
    goldenCommit.serializeJson goldenStore 0 = .ok goldenJson ∧
    JsonSorted goldenJson ∧
    (urls.IS_A, JsonVal.jarr [JsonVal.jstr urls.COMMIT]) ∈ goldenJson.fields :=
  ⟨rfl,
   (c1_serialize_deterministically_golden.2 goldenCommit goldenStore 0 goldenJson rfl).1,
   (c1_serialize_deterministically_golden.2 goldenCommit goldenStore 0 goldenJson rfl).2.2⟩

/-- C4: the claim states `is_external_subject` compares the subject's
host AFTER STRIPPING ONE LEFTMOST LABEL with the self host.  The source
(storelike.rs) instead compares only the LAST dot-separated label
(`subject_host_parts.last()`), contradicting its own comment "remove the
subdomain from subject, if any": for self URL `https://example.com/` and
subject `https://sub.example.com/index` the spec rule compares
`example.com` with `example.com` (internal), yet the code returns
external.  The `local` self URL marks everything external as claimed. -/
theorem c4_is_external_subject_last_label :
    bugSelfStore.isExternalSubject "https://sub.example.com/index" = .ok true ∧
    strStartsWith "https://sub.example.com/index" "https://example.com/" = false ∧
    specStripOneLabel "sub.example.com" = "example.com" ∧
    (parseUrl "https://example.com/").map ParsedUrl.host = some "example.com" ∧
    ({ bugSelfStore with selfUrl := some LOCAL_STORE_URL_STR } : Store).isExternalSubject
        "https://sub.example.com/index" = .ok true :=
  ⟨rfl, rfl, rfl, rfl, rfl⟩

end AtomicData
